import Mathlib

/-!
Verification of the kd-tree Pareto front (`KDTreeFront`) from
`src/pareto_pq/kd_tree.rs`, instantiated with Cartesian elements
(`CartesianParetoElement`: a fixed-arity vector of unsigned integers,
`dominates` = weak Pareto dominance).

The shallow embedding below mirrors the Rust source:
an element is its coordinate list (`Elt := List Nat`), a tree link
(`Option<Box<Node>>`) is a `Tree` (`nil` = absent), and each mutating
Rust function becomes a function returning the new tree.  Mutable-link
surgery (`&mut Link` returned by `rec_search` / `mut_rec_search_minimum`)
is modelled by a path of directions (`List Bool`, `false` = left child,
`true` = right child) together with `subtree_at` / `replace_at_path`,
which rebuild the ancestors exactly as the Rust leaves them: ancestor
nodes keep their stored bound arrays untouched.
-/

namespace KD

/-- A Pareto element: its coordinate vector (`CartesianParetoElement.coords`).
Coordinates are unsigned integers in the source (`u16`/`u32`), so `Nat`. -/
abbrev Elt := List Nat

/-- `ParetoElement::kth`: the k-th coordinate.  In the source this indexes a
fixed-size array; a tree only ever holds elements of its arity, so `getD 0`
is only a total stand-in for the in-bounds access. -/
def kth (e : Elt) (i : Nat) : Nat := e.getD i 0

/-- `CartesianParetoElement::dominates`: weak Pareto dominance,
`self[i] <= other[i]` for every dimension `i < k`. -/
def dominates (k : Nat) (a b : Elt) : Bool :=
  (List.range k).all (fun i => decide (kth a i ≤ kth b i))

/-- A kd-tree link: `Option<Box<Node<T,Elt,NB_DIM>>>`.  `node e l r b`
carries the node element, left and right child links, and the cached
per-dimension `(lower, upper)` bound array `b`. -/
inductive Tree : Type where
  | nil : Tree
  | node (e : Elt) (l : Tree) (r : Tree) (b : List (Nat × Nat)) : Tree
deriving DecidableEq, Repr

/-- The cached bound array of a link (empty for an absent node). -/
def boundsOf : Tree → List (Nat × Nat)
  | .nil => []
  | .node _ _ _ b => b

/-- All elements stored in a subtree, root first (`e`, then left, then right). -/
def elements : Tree → List Elt
  | .nil => []
  | .node e l r _ => e :: (elements l ++ elements r)

/-- The elements of a subtree as a multiset (tree shape forgotten). -/
def elems (t : Tree) : Multiset Elt := (elements t : Multiset Elt)

/-- Number of nodes of a subtree (used as recursion fuel below). -/
def tsize : Tree → Nat
  | .nil => 0
  | .node _ l r _ => 1 + tsize l + tsize r

/-- Merge an accumulated bound array with a child's bound array entrywise:
`res[i] = (min res[i].0 child[i].0, max res[i].1 child[i].1)`
(the loop bodies of `Node::compute_bounds`). -/
def merge_bounds (res bc : List (Nat × Nat)) : List (Nat × Nat) :=
  List.zipWith (fun p q => (min p.1 q.1, max p.2 q.2)) res bc

/-- `Node::compute_bounds`: start from the element's own coordinates as
degenerate intervals, then widen by each present child's cached bounds. -/
def compute_bounds (k : Nat) (e : Elt) (l r : Tree) : List (Nat × Nat) :=
  let res := (List.range k).map (fun i => (kth e i, kth e i))
  let res := match l with
    | .nil => res
    | .node _ _ _ bl => merge_bounds res bl
  match r with
  | .nil => res
  | .node _ _ _ br => merge_bounds res br

/-- `Node::update_bounds`: recompute this node's cached bounds from its
element and its children's cached bounds. -/
def update_bounds (k : Nat) : Tree → Tree
  | .nil => .nil
  | .node e l r _ => .node e l r (compute_bounds k e l r)

/-- `KDTreeFront::rec_insert_without_check`: descend by the rotating
discriminant (`elt[dim] < node[dim]` goes left, otherwise right), attach a
fresh leaf at the first absent child, and recompute bounds on the way up
(`attach_left`/`attach_right` followed by `update_bounds`). -/
def rec_insert_without_check (k : Nat) : Tree → Elt → Nat → Tree
  | .nil, _, _ => .nil
  | .node e l r b, elt, dim =>
    if kth elt dim < kth e dim then
      match l with
      | .nil =>
        update_bounds k (.node e (.node elt .nil .nil (compute_bounds k elt .nil .nil)) r b)
      | .node el ll rl bl =>
        update_bounds k
          (.node e (rec_insert_without_check k (.node el ll rl bl) elt ((dim+1) % k)) r b)
    else
      match r with
      | .nil =>
        update_bounds k (.node e l (.node elt .nil .nil (compute_bounds k elt .nil .nil)) b)
      | .node er lr rr br =>
        update_bounds k
          (.node e l (rec_insert_without_check k (.node er lr rr br) elt ((dim+1) % k)) b)

/-- `KDTreeFront::insert_without_check`: empty tree gets a fresh root. -/
def insert_without_check (k : Nat) (root : Tree) (elt : Elt) : Tree :=
  match root with
  | .nil => .node elt .nil .nil (compute_bounds k elt .nil .nil)
  | .node e l r b => rec_insert_without_check k (.node e l r b) elt 0

/-- The direction path taken by `mut_rec_search_minimum` /
`rec_search_minimum` toward the subtree minimum on `target`: at a node,
compare the node's own coordinate against each present child's cached
lower bound on `target`; descend into a child only if its bound is a
strict improvement, preferring the left child only when its bound is
strictly below the right child's. -/
def search_min_path : Tree → Nat → List Bool
  | .nil, _ => []
  | .node e l r _, target =>
    let v_e := kth e target
    match l, r with
    | .nil, .nil => []
    | .nil, .node er lr rr br =>
      if (br.getD target (0, 0)).1 < v_e then
        true :: search_min_path (.node er lr rr br) target
      else []
    | .node el ll rl bl, .nil =>
      if (bl.getD target (0, 0)).1 < v_e then
        false :: search_min_path (.node el ll rl bl) target
      else []
    | .node el ll rl bl, .node er lr rr br =>
      let vl := (bl.getD target (0, 0)).1
      let vr := (br.getD target (0, 0)).1
      if vl < v_e ∧ vl < vr then
        false :: search_min_path (.node el ll rl bl) target
      else if vr < v_e then
        true :: search_min_path (.node er lr rr br) target
      else []

/-- Follow a direction path down a tree (`false` = left, `true` = right). -/
def subtree_at : Tree → List Bool → Tree
  | t, [] => t
  | .nil, _ :: _ => .nil
  | .node _ l _ _, false :: p => subtree_at l p
  | .node _ _ r _, true :: p => subtree_at r p

/-- Replace the subtree at the end of a path, leaving every ancestor's
stored bound array untouched (exactly what mutating through a `&mut Link`
obtained from a recursive search does in the source: no bound on the path
is recomputed). -/
def replace_at_path : Tree → List Bool → Tree → Tree
  | _, [], t2 => t2
  | .nil, _ :: _, _ => .nil
  | .node e l r b, false :: p, t2 => .node e (replace_at_path l p t2) r b
  | .node e l r b, true :: p, t2 => .node e l (replace_at_path r p t2) b

/-- `KDTreeFront::remove_link`, with explicit recursion fuel (the wrapper
`remove_link` passes `tsize t`, which always suffices).  A leaf is removed
outright; otherwise the (possibly swapped-in) right subtree is searched
for its minimum on `dim`, that minimum node is recursively removed —
passing the same `dim`, as the source does — and its element is promoted
into the current slot, after which only this node's bounds are recomputed.
The `none` fallthroughs model the source's `unwrap` panic and fuel
exhaustion; both are unreachable for `fuel ≥ tsize t`. -/
def remove_link_fuel (k : Nat) : Nat → Tree → Nat → Option Elt × Tree
  | _, .nil, _ => (none, .nil)
  | 0, .node _ _ _ _, _ => (none, .nil)
  | fuel+1, .node e l r _, dim =>
    match l, r with
    | .nil, .nil => (some e, .nil)
    | left, .node er lr rr br =>
      let rn : Tree := .node er lr rr br
      let p := search_min_path rn dim
      let res := remove_link_fuel k fuel (subtree_at rn p) dim
      match res.1 with
      | some m =>
        let r2 := replace_at_path rn p res.2
        (some e, .node m left r2 (compute_bounds k m left r2))
      | none => (none, .nil)
    | .node el ll rl bl, .nil =>
      let rn : Tree := .node el ll rl bl
      let p := search_min_path rn dim
      let res := remove_link_fuel k fuel (subtree_at rn p) dim
      match res.1 with
      | some m =>
        let r2 := replace_at_path rn p res.2
        (some e, .node m .nil r2 (compute_bounds k m .nil r2))
      | none => (none, .nil)

/-- `KDTreeFront::remove_link` (see `remove_link_fuel`). -/
def remove_link (k : Nat) (t : Tree) (dim : Nat) : Option Elt × Tree :=
  remove_link_fuel k (tsize t) t dim

/-- `rec_search` + `remove_and_return` fused: descend by the rotating
discriminant until the node's element equals `elt` (then `remove_link`
with the discriminant at that depth) or an absent child is reached (then
nothing is removed).  Ancestors on the search path keep their stored
bounds, as in the source. -/
def rec_remove_and_return (k : Nat) : Tree → Elt → Nat → Option Elt × Tree
  | .nil, _, _ => (none, .nil)
  | .node e l r b, elt, dim =>
    if e = elt then remove_link k (.node e l r b) dim
    else if kth elt dim < kth e dim then
      let res := rec_remove_and_return k l elt ((dim+1) % k)
      (res.1, .node e res.2 r b)
    else
      let res := rec_remove_and_return k r elt ((dim+1) % k)
      (res.1, .node e l res.2 b)

/-- `KDTreeFront::rec_exists_dominating`: prune a subtree as soon as some
coordinate of `elt` is strictly below the subtree's cached lower bound;
otherwise test the node, then the left child, then the right child. -/
def rec_exists_dominating (k : Nat) : Tree → Elt → Option Elt
  | .nil, _ => none
  | .node e l r b, elt =>
    if (List.range k).any (fun i => decide (kth elt i < (b.getD i (0, 0)).1)) then none
    else if dominates k e elt then some e
    else
      match rec_exists_dominating k l elt with
      | some x => some x
      | none => rec_exists_dominating k r elt

/-- `KDTreeFront::rec_remove_dominated_by`: prune a subtree as soon as
some coordinate of `elt` is strictly above the subtree's cached upper
bound; otherwise clean both children first, then remove the node itself
(via `remove_link` at this depth's discriminant) if `elt` dominates it. -/
def rec_remove_dominated_by (k : Nat) : Tree → Elt → Nat → Tree
  | .nil, _, _ => .nil
  | .node e l r b, elt, dim =>
    if (List.range k).any (fun i => decide ((b.getD i (0, 0)).2 < kth elt i)) then
      .node e l r b
    else
      let l2 := rec_remove_dominated_by k l elt ((dim+1) % k)
      let r2 := rec_remove_dominated_by k r elt ((dim+1) % k)
      if dominates k elt e then (remove_link k (.node e l2 r2 b) dim).2
      else .node e l2 r2 b

/-- `ParetoFront::find_dominating` for `KDTreeFront`. -/
def find_dominating (k : Nat) (root : Tree) (elt : Elt) : Option Elt :=
  rec_exists_dominating k root elt

/-- `ParetoFront::insert` for `KDTreeFront`: reject (returning the tree
unchanged) if some stored element dominates `elt`; otherwise sweep out the
elements dominated by `elt` and insert `elt` without further checks. -/
def insert (k : Nat) (root : Tree) (elt : Elt) : Bool × Tree :=
  if (find_dominating k root elt).isSome then (false, root)
  else (true, insert_without_check k (rec_remove_dominated_by k root elt 0) elt)

/-- `ParetoFront::remove` for `KDTreeFront`. -/
def remove (k : Nat) (root : Tree) (elt : Elt) : Bool × Tree :=
  let res := rec_remove_and_return k root elt 0
  (res.1.isSome, res.2)

/-- `ParetoFront::pop_minimum_element` for `KDTreeFront`: locate the
minimum link via `mut_rec_search_minimum` (started with depth dimension
`0`), then `remove_link` there with the discriminant at the found depth. -/
def pop_minimum_element (k : Nat) (root : Tree) (dim : Nat) : Option Elt × Tree :=
  match root with
  | .nil => (none, .nil)
  | .node e l r b =>
    let t : Tree := .node e l r b
    let p := search_min_path t dim
    let res := remove_link k (subtree_at t p) (p.length % k)
    (res.1, replace_at_path t p res.2)

/-- `ParetoFront::peek_minimum_element` for `KDTreeFront`. -/
def peek_minimum_element (root : Tree) (dim : Nat) : Option Elt :=
  match subtree_at root (search_min_path root dim) with
  | .nil => none
  | .node e _ _ _ => some e

/-- `ParetoFront::is_empty` for `KDTreeFront`. -/
def is_empty (root : Tree) : Bool :=
  match root with
  | .nil => true
  | .node _ _ _ _ => false

/-- `ParetoFront::query` for `KDTreeFront`: the body is `todo!()`, so the
call never produces a value; `none` models the unconditional panic. -/
def query (_root : Tree) (_min_bound _max_bound : List Nat) : Option (List Elt) :=
  none

/-- States of a `KDTreeFront` with arity `k` reachable from the empty
front through the public operations, with well-formed arguments
(elements of arity `k`, dimension indices below `k`). -/
inductive Reachable (k : Nat) : Tree → Prop where
  | empty : Reachable k Tree.nil
  | ins (t : Tree) (elt : Elt) : Reachable k t → elt.length = k →
      Reachable k (insert k t elt).2
  | rem (t : Tree) (elt : Elt) : Reachable k t → elt.length = k →
      Reachable k (remove k t elt).2
  | pop (t : Tree) (dim : Nat) : Reachable k t → dim < k →
      Reachable k (pop_minimum_element k t dim).2

/-- Spec checker for the bound-correctness invariant: every node's cached
bound entry `i` equals the brute-force minimum and maximum of coordinate
`i` over its subtree. -/
def bounds_exact_B (k : Nat) : Tree → Bool
  | .nil => true
  | .node e l r b =>
    ((List.range k).all (fun i =>
      let cs := (elements (Tree.node e l r b)).map (fun x => kth x i)
      decide ((b.getD i (0, 0)).1 = cs.foldr min (kth e i)) &&
      decide ((b.getD i (0, 0)).2 = cs.foldr max (kth e i)))) &&
    bounds_exact_B k l && bounds_exact_B k r

/-- Spec checker for the partition invariant: at a node whose depth
discriminant is `dim`, the left subtree is strictly below and the right
subtree at-or-above the node's coordinate `dim`. -/
def partitionB (k : Nat) : Tree → Nat → Bool
  | .nil, _ => true
  | .node e l r _, dim =>
    ((elements l).all (fun x => decide (kth x dim < kth e dim))) &&
    ((elements r).all (fun x => decide (kth e dim ≤ kth x dim))) &&
    partitionB k l ((dim+1) % k) && partitionB k r ((dim+1) % k)

end KD

namespace KD

/-! ### Concrete states used by the counterexample and evaluation theorems -/

/-- Front after `insert [1,1]; insert [0,2]; remove [0,2]` (2 dimensions). -/
def c5_state : Tree :=
  (remove 2 (insert 2 (insert 2 Tree.nil [1,1]).2 [0,2]).2 [0,2]).2

/-- Front after inserting `[0,3], [3,0], [2,1], [1,2]` (2 dimensions). -/
def c4_start : Tree :=
  (insert 2 (insert 2 (insert 2 (insert 2 Tree.nil [0,3]).2 [3,0]).2 [2,1]).2 [1,2]).2

/-- `c4_start` after two `pop_minimum_element 0` calls (they return
`[0,3]` then `[1,2]`); the elements still stored are `[2,1]` and `[3,0]`. -/
def c4_state : Tree :=
  (pop_minimum_element 2 (pop_minimum_element 2 c4_start 0).2 0).2

/-- Front after inserting `[3,0], [0,3], [2,1], [1,2]` (2 dimensions). -/
def c6_start : Tree :=
  (insert 2 (insert 2 (insert 2 (insert 2 Tree.nil [3,0]).2 [0,3]).2 [2,1]).2 [1,2]).2

/-- `c6_start` after one `pop_minimum_element 1` call (it returns `[3,0]`). -/
def c6_state : Tree := (pop_minimum_element 2 c6_start 1).2

/-- Front after inserting `[1,0,2], [2,0,1], [0,1,1]` (3 dimensions). -/
def c8_state : Tree :=
  (insert 3 (insert 3 (insert 3 Tree.nil [1,0,2]).2 [2,0,1]).2 [0,1,1]).2

/-- Front holding exactly `[1,1]` (2 dimensions). -/
def c7_t0 : Tree := (insert 2 Tree.nil [1,1]).2

/-- Front after `insert [10,10]; insert [5,5]` (the second insert evicts
`[10,10]`, since `[5,5]` weakly dominates it). -/
def c9_step2 : Tree := (insert 2 (insert 2 Tree.nil [10,10]).2 [5,5]).2

/-- `c9_step2` after the (rejected) `insert [20,20]`. -/
def c9_state : Tree := (insert 2 c9_step2 [20,20]).2

/-! ### Invariants used in the proofs -/

/-- A bound array `b` covers an element `x` when, on every dimension
`i < k`, entry `i` brackets `x`'s coordinate `i`.  (Cached bounds of the
source are *conservative*: they always cover the subtree's elements, but
deletions leave them wider than the true hull, see `C5`.) -/
def Covers (k : Nat) (b : List (Nat × Nat)) (x : Elt) : Prop :=
  ∀ i < k, (b.getD i (0, 0)).1 ≤ kth x i ∧ kth x i ≤ (b.getD i (0, 0)).2

/-- Conservative-bounds invariant: every node's cached bound array has
arity `k` and covers every element of the node's subtree. -/
inductive Conserv (k : Nat) : Tree → Prop where
  | nil : Conserv k Tree.nil
  | node {e : Elt} {l r : Tree} {b : List (Nat × Nat)} :
      b.length = k →
      (∀ x ∈ elements (Tree.node e l r b), Covers k b x) →
      Conserv k l → Conserv k r → Conserv k (Tree.node e l r b)

/-- Antichain: no stored element weakly dominates a distinct stored one. -/
def Antichain (k : Nat) (t : Tree) : Prop :=
  ∀ a ∈ elements t, ∀ c ∈ elements t, a ≠ c → dominates k a c = false

/-- The inductive invariant maintained by every public operation. -/
def Inv (k : Nat) (t : Tree) : Prop := Conserv k t ∧ Antichain k t

/-! ### Claim theorems: concrete evaluations -/

/-- **C4** (code bug): on the reachable 2-dimensional front `c4_state`
(obtained from the empty front by inserting `[0,3], [3,0], [2,1], [1,2]`
and popping the dimension-0 minimum twice), `[2,1]` is stored with
coordinate 0 equal to `2`, yet `pop_minimum_element 0` returns `[3,0]`,
whose coordinate 0 is `3` — not the globally smallest.  The stale cached
bounds left behind by the earlier deletions misdirect the search. -/
theorem C4_pop_minimum_not_minimal :
    [2,1] ∈ elements c4_state ∧ kth [2,1] 0 = 2 ∧
    (pop_minimum_element 2 c4_state 0).1 = some [3,0] ∧ kth [3,0] 0 = 3 := by decide

/-- **C5** (code bug): after `insert [1,1]; insert [0,2]; remove [0,2]`
the only stored element is `[1,1]`, but the root's cached bounds are
still `[(0,1),(1,2)]` (they keep the removed element's coordinates):
`remove` never recomputes the bounds of the ancestors of the deleted
node, so the bound-correctness invariant fails. -/
theorem C5_bounds_stale_after_remove :
    elements c5_state = [[1,1]] ∧ boundsOf c5_state = [(0,1), (1,2)] ∧
    bounds_exact_B 2 c5_state = false := by decide

/-- **C6** (code bug): on the reachable front `c6_state` (insert
`[3,0], [0,3], [2,1], [1,2]`, then pop the dimension-1 minimum) the
partition invariant is violated, and consequently `remove [2,1]` returns
`false` and changes nothing even though `[2,1]` is stored.  The culprit
is `remove_link`, which deletes the promoted minimum node with the
discriminant of the *original* node instead of the minimum node's own
depth discriminant. -/
theorem C6_partition_invariant_violated :
    partitionB 2 c6_state 0 = false ∧ [2,1] ∈ elements c6_state ∧
    remove 2 c6_state [2,1] = (false, c6_state) := by decide

/-- **C8, counterexample**: on the reachable 3-dimensional front
`c8_state` (insert `[1,0,2], [2,0,1], [0,1,1]`), searching the minimum on
dimension 2 at the root finds both children present with equal cached
lower bounds `1`, both strictly below the root's coordinate `2` — and the
search recurses into the *right* child (direction `true`), not the left
one as claimed. -/
theorem C8_tie_recurses_right_counterexample :
    c8_state = Tree.node [1,0,2]
      (Tree.node [0,1,1] Tree.nil Tree.nil [(0,0), (1,1), (1,1)])
      (Tree.node [2,0,1] Tree.nil Tree.nil [(2,2), (0,0), (1,1)])
      [(0,2), (0,1), (1,2)] ∧
    ((boundsOf (Tree.node [0,1,1] Tree.nil Tree.nil [(0,0), (1,1), (1,1)])).getD 2 (0,0)).1 =
      ((boundsOf (Tree.node [2,0,1] Tree.nil Tree.nil [(2,2), (0,0), (1,1)])).getD 2 (0,0)).1 ∧
    ((boundsOf (Tree.node [0,1,1] Tree.nil Tree.nil [(0,0), (1,1), (1,1)])).getD 2 (0,0)).1 <
      kth [1,0,2] 2 ∧
    search_min_path c8_state 2 = [true] := by decide

/-- **C8, amended**: at a node with both children present whose cached
lower bounds on the target dimension are equal and strictly below the
node's own coordinate, the directed minimum search recurses into the
*right* child (the source tests `vl < v_e && vl < vr` first, which fails
on a tie, then `vr < v_e`, which succeeds). -/
theorem C8_tie_recurses_right (e el er : Elt) (ll rl lr rr : Tree)
    (b bl br : List (Nat × Nat)) (target : Nat)
    (htie : (bl.getD target (0, 0)).1 = (br.getD target (0, 0)).1)
    (hlt : (br.getD target (0, 0)).1 < kth e target) :
    search_min_path
      (Tree.node e (Tree.node el ll rl bl) (Tree.node er lr rr br) b) target
      = true :: search_min_path (Tree.node er lr rr br) target := by
  simp only [search_min_path]
  rw [if_neg, if_pos hlt]
  rw [htie]
  simp

/-- Witness for `C8_tie_recurses_right` at the components of `c8_state`. -/
theorem C8_tie_recurses_right_witness :
    search_min_path
      (Tree.node [1,0,2] (Tree.node [0,1,1] Tree.nil Tree.nil [(0,0), (1,1), (1,1)])
        (Tree.node [2,0,1] Tree.nil Tree.nil [(2,2), (0,0), (1,1)])
        [(0,2), (0,1), (1,2)]) 2
      = true :: search_min_path (Tree.node [2,0,1] Tree.nil Tree.nil [(2,2), (0,0), (1,1)]) 2 :=
  C8_tie_recurses_right [1,0,2] [0,1,1] [2,0,1] Tree.nil Tree.nil Tree.nil Tree.nil
    [(0,2), (0,1), (1,2)] [(0,0), (1,1), (1,1)] [(2,2), (0,0), (1,1)] 2
    (by decide) (by decide)

/-- **C9, counterexample**: in the spec's scenario the three elements are
*not* mutually non-dominating — `[5,5]` weakly dominates `[10,10]` — so
the third insert is rejected and the second `pop_minimum_element 0`
already returns `none` instead of `[10,10]`. -/
theorem C9_counterexample :
    dominates 2 [5,5] [10,10] = true ∧
    (insert 2 c9_step2 [20,20]).1 = false ∧
    (pop_minimum_element 2 (pop_minimum_element 2 c9_state 0).2 0).1 = none := by decide

/-- **C9, amended**: inserting `[10,10]`, `[5,5]`, `[20,20]` in order
with the public `insert`: the first two return `true` (the second evicts
`[10,10]`, which `[5,5]` dominates), the third returns `false` (`[5,5]`
dominates `[20,20]`); one `pop_minimum_element 0` then yields `[5,5]`
and leaves the tree empty. -/
theorem C9_amended_behavior :
    (insert 2 Tree.nil [10,10]).1 = true ∧
    (insert 2 (insert 2 Tree.nil [10,10]).2 [5,5]).1 = true ∧
    elements c9_step2 = [[5,5]] ∧
    (insert 2 c9_step2 [20,20]).1 = false ∧
    elements c9_state = [[5,5]] ∧
    pop_minimum_element 2 c9_state 0 = (some [5,5], Tree.nil) := by decide

/-- **C10**: the range-query operation of the kd-tree front is
unimplemented — its body is `todo!()` — so no call ever produces a value
(the embedding models the unconditional panic as `none`). -/
theorem C10_query_never_returns (t : Tree) (mn mx : List Nat) :
    query t mn mx = none := rfl

/-- **C7, counterexample**: with pre-insert contents `{[1,1]}`, inserting
`[0,0]` succeeds (evicting `[1,1]`), and the immediately following
`remove [0,0]` returns `true` — but the tree is then empty, not equal to
the pre-insert contents. -/
theorem C7_counterexample :
    (insert 2 c7_t0 [0,0]).1 = true ∧
    remove 2 (insert 2 c7_t0 [0,0]).2 [0,0] = (true, Tree.nil) ∧
    elements c7_t0 = [[1,1]] ∧
    elems (remove 2 (insert 2 c7_t0 [0,0]).2 [0,0]).2 ≠ elems c7_t0 := by decide

end KD

namespace KD

/-! ### Helper lemmas: elements, sizes, paths -/

theorem elems_nil_eq : elems Tree.nil = 0 := rfl

theorem elems_node (e : Elt) (l r : Tree) (b : List (Nat × Nat)) :
    elems (Tree.node e l r b) = e ::ₘ (elems l + elems r) := by
  simp [elems, elements]

theorem mem_elements_node {x e : Elt} {l r : Tree} {b : List (Nat × Nat)} :
    x ∈ elements (Tree.node e l r b) ↔ x = e ∨ x ∈ elements l ∨ x ∈ elements r := by
  simp [elements]

theorem elements_update_bounds (k : Nat) (t : Tree) :
    elements (update_bounds k t) = elements t := by
  cases t <;> rfl

theorem subtree_at_nil (p : List Bool) : subtree_at Tree.nil p = Tree.nil := by
  cases p <;> rfl

theorem subtree_at_cons_false (e : Elt) (l r : Tree) (b : List (Nat × Nat)) (p : List Bool) :
    subtree_at (Tree.node e l r b) (false :: p) = subtree_at l p := rfl

theorem subtree_at_cons_true (e : Elt) (l r : Tree) (b : List (Nat × Nat)) (p : List Bool) :
    subtree_at (Tree.node e l r b) (true :: p) = subtree_at r p := rfl

theorem tsize_subtree_at (p : List Bool) : ∀ t : Tree, tsize (subtree_at t p) ≤ tsize t := by
  induction p with
  | nil => intro t; simp [subtree_at]
  | cons d p ih =>
    intro t
    cases t with
    | nil => simp [subtree_at_nil]
    | node e l r b =>
      cases d with
      | false =>
        have h := ih l
        rw [subtree_at_cons_false]
        simp only [tsize]
        omega
      | true =>
        have h := ih r
        rw [subtree_at_cons_true]
        simp only [tsize]
        omega

theorem mem_elements_subtree_at (p : List Bool) :
    ∀ t : Tree, ∀ x ∈ elements (subtree_at t p), x ∈ elements t := by
  induction p with
  | nil => intro t x hx; simpa [subtree_at] using hx
  | cons d p ih =>
    intro t x hx
    cases t with
    | nil => rw [subtree_at_nil] at hx; simp [elements] at hx
    | node e l r b =>
      cases d with
      | false =>
        rw [subtree_at_cons_false] at hx
        exact mem_elements_node.mpr (Or.inr (Or.inl (ih l x hx)))
      | true =>
        rw [subtree_at_cons_true] at hx
        exact mem_elements_node.mpr (Or.inr (Or.inr (ih r x hx)))

theorem mem_elements_replace_at_path (p : List Bool) :
    ∀ t t2 : Tree, ∀ x ∈ elements (replace_at_path t p t2),
      x ∈ elements t ∨ x ∈ elements t2 := by
  induction p with
  | nil => intro t t2 x hx; exact Or.inr (by simpa [replace_at_path] using hx)
  | cons d p ih =>
    intro t t2 x hx
    cases t with
    | nil =>
      cases d <;> simp [replace_at_path, elements] at hx
    | node e l r b =>
      cases d with
      | false =>
        simp only [replace_at_path] at hx
        rcases mem_elements_node.mp hx with h | h | h
        · exact Or.inl (mem_elements_node.mpr (Or.inl h))
        · rcases ih l t2 x h with h2 | h2
          · exact Or.inl (mem_elements_node.mpr (Or.inr (Or.inl h2)))
          · exact Or.inr h2
        · exact Or.inl (mem_elements_node.mpr (Or.inr (Or.inr h)))
      | true =>
        simp only [replace_at_path] at hx
        rcases mem_elements_node.mp hx with h | h | h
        · exact Or.inl (mem_elements_node.mpr (Or.inl h))
        · exact Or.inl (mem_elements_node.mpr (Or.inr (Or.inl h)))
        · rcases ih r t2 x h with h2 | h2
          · exact Or.inl (mem_elements_node.mpr (Or.inr (Or.inr h2)))
          · exact Or.inr h2

theorem elems_replace_at_path (p : List Bool) :
    ∀ t t2 : Tree, subtree_at t p ≠ Tree.nil →
      elems (replace_at_path t p t2) + elems (subtree_at t p) = elems t + elems t2 := by
  induction p with
  | nil =>
    intro t t2 _
    simp only [replace_at_path, subtree_at]
    exact add_comm _ _
  | cons d p ih =>
    intro t t2 hsub
    cases t with
    | nil => rw [subtree_at_nil] at hsub; exact absurd rfl hsub
    | node e l r b =>
      cases d with
      | false =>
        rw [subtree_at_cons_false] at hsub ⊢
        simp only [replace_at_path, elems_node]
        have h := ih l t2 hsub
        rw [Multiset.cons_add, Multiset.cons_add]
        rw [add_right_comm, h, add_right_comm]
      | true =>
        rw [subtree_at_cons_true] at hsub ⊢
        simp only [replace_at_path, elems_node]
        have h := ih r t2 hsub
        rw [Multiset.cons_add, Multiset.cons_add]
        rw [add_assoc, h, add_assoc]

theorem subtree_at_search_min_path (target : Nat) :
    ∀ t : Tree, t ≠ Tree.nil → subtree_at t (search_min_path t target) ≠ Tree.nil := by
  intro t
  induction t with
  | nil => intro h; exact absurd rfl h
  | node e l r b ihl ihr =>
    intro _
    cases l with
    | nil =>
      cases r with
      | nil => simp [search_min_path, subtree_at]
      | node er lr rr br =>
        simp only [search_min_path]
        split_ifs with h
        · rw [subtree_at_cons_true]
          exact ihr (by simp)
        · simp [subtree_at]
    | node el ll rl bl =>
      cases r with
      | nil =>
        simp only [search_min_path]
        split_ifs with h
        · rw [subtree_at_cons_false]
          exact ihl (by simp)
        · simp [subtree_at]
      | node er lr rr br =>
        simp only [search_min_path]
        split_ifs with h1 h2
        · rw [subtree_at_cons_false]
          exact ihl (by simp)
        · rw [subtree_at_cons_true]
          exact ihr (by simp)
        · simp [subtree_at]

end KD

namespace KD

/-! ### Helper lemmas: conservative bounds -/

theorem conserv_left {k : Nat} {e : Elt} {l r : Tree} {b : List (Nat × Nat)}
    (h : Conserv k (Tree.node e l r b)) : Conserv k l := by
  cases h; assumption

theorem conserv_right {k : Nat} {e : Elt} {l r : Tree} {b : List (Nat × Nat)}
    (h : Conserv k (Tree.node e l r b)) : Conserv k r := by
  cases h; assumption

theorem conserv_blen {k : Nat} {e : Elt} {l r : Tree} {b : List (Nat × Nat)}
    (h : Conserv k (Tree.node e l r b)) : b.length = k := by
  cases h; assumption

theorem conserv_covers {k : Nat} {e : Elt} {l r : Tree} {b : List (Nat × Nat)}
    (h : Conserv k (Tree.node e l r b)) :
    ∀ x ∈ elements (Tree.node e l r b), Covers k b x := by
  cases h; assumption

theorem getD_range_map (k i : Nat) (f : Nat → Nat × Nat) (h : i < k) :
    ((List.range k).map f).getD i (0, 0) = f i := by
  rw [List.getD_eq_getElem?_getD, List.getElem?_map, List.getElem?_range h]
  rfl

theorem merge_bounds_length (res bc : List (Nat × Nat)) :
    (merge_bounds res bc).length = min res.length bc.length :=
  List.length_zipWith _ res bc

theorem merge_bounds_getD :
    ∀ (res bc : List (Nat × Nat)) (i : Nat), i < res.length → i < bc.length →
      (merge_bounds res bc).getD i (0, 0) =
        (min (res.getD i (0, 0)).1 (bc.getD i (0, 0)).1,
         max (res.getD i (0, 0)).2 (bc.getD i (0, 0)).2) := by
  intro res
  induction res with
  | nil => intro bc i h1 _; simp at h1
  | cons p res ih =>
    intro bc i h1 h2
    cases bc with
    | nil => simp at h2
    | cons q bc =>
      cases i with
      | zero => rfl
      | succ i =>
        have h1' : i < res.length := by simpa using h1
        have h2' : i < bc.length := by simpa using h2
        simpa [merge_bounds, List.zipWith] using ih bc i h1' h2'

theorem compute_bounds_length (k : Nat) (e : Elt) {l r : Tree}
    (hl : Conserv k l) (hr : Conserv k r) :
    (compute_bounds k e l r).length = k := by
  cases l with
  | nil =>
    cases r with
    | nil => simp [compute_bounds]
    | node er lr rr br =>
      have := conserv_blen hr
      simp [compute_bounds, merge_bounds_length, this]
  | node el ll rl bl =>
    have hbl := conserv_blen hl
    cases r with
    | nil => simp [compute_bounds, merge_bounds_length, hbl]
    | node er lr rr br =>
      have hbr := conserv_blen hr
      simp [compute_bounds, merge_bounds_length, hbl, hbr]

theorem covers_compute_bounds (k : Nat) (e : Elt) {l r : Tree}
    (hl : Conserv k l) (hr : Conserv k r) :
    ∀ x, (x = e ∨ x ∈ elements l ∨ x ∈ elements r) →
      Covers k (compute_bounds k e l r) x := by
  have hbase : ∀ i < k, ((List.range k).map (fun j => (kth e j, kth e j))).getD i (0, 0)
      = (kth e i, kth e i) := fun i hi => getD_range_map k i _ hi
  have hbaselen : ((List.range k).map (fun j => (kth e j, kth e j))).length = k := by simp
  cases l with
  | nil =>
    cases r with
    | nil =>
      rintro x (rfl | hx | hx)
      · intro i hi
        simp only [compute_bounds]
        rw [hbase i hi]
        exact ⟨le_refl _, le_refl _⟩
      · simp [elements] at hx
      · simp [elements] at hx
    | node er lr rr br =>
      have hbr := conserv_blen hr
      have hcovr := conserv_covers hr
      have hmerge : ∀ i < k,
          (compute_bounds k e Tree.nil (Tree.node er lr rr br)).getD i (0, 0) =
            (min (kth e i) ((br.getD i (0, 0)).1), max (kth e i) ((br.getD i (0, 0)).2)) := by
        intro i hi
        simp only [compute_bounds]
        rw [merge_bounds_getD _ _ i (by omega) (by omega), hbase i hi]
      rintro x (rfl | hx | hx)
      · intro i hi
        rw [hmerge i hi]
        exact ⟨min_le_left _ _, le_max_left _ _⟩
      · simp [elements] at hx
      · intro i hi
        rw [hmerge i hi]
        have := hcovr x hx i hi
        exact ⟨le_trans (min_le_right _ _) this.1, le_trans this.2 (le_max_right _ _)⟩
  | node el ll rl bl =>
    have hbl := conserv_blen hl
    have hcovl := conserv_covers hl
    cases r with
    | nil =>
      have hmerge : ∀ i < k,
          (compute_bounds k e (Tree.node el ll rl bl) Tree.nil).getD i (0, 0) =
            (min (kth e i) ((bl.getD i (0, 0)).1), max (kth e i) ((bl.getD i (0, 0)).2)) := by
        intro i hi
        simp only [compute_bounds]
        rw [merge_bounds_getD _ _ i (by omega) (by omega), hbase i hi]
      rintro x (rfl | hx | hx)
      · intro i hi
        rw [hmerge i hi]
        exact ⟨min_le_left _ _, le_max_left _ _⟩
      · intro i hi
        rw [hmerge i hi]
        have := hcovl x hx i hi
        exact ⟨le_trans (min_le_right _ _) this.1, le_trans this.2 (le_max_right _ _)⟩
      · simp [elements] at hx
    | node er lr rr br =>
      have hbr := conserv_blen hr
      have hcovr := conserv_covers hr
      have hmerge : ∀ i < k,
          (compute_bounds k e (Tree.node el ll rl bl) (Tree.node er lr rr br)).getD i (0, 0) =
            (min (min (kth e i) ((bl.getD i (0, 0)).1)) ((br.getD i (0, 0)).1),
             max (max (kth e i) ((bl.getD i (0, 0)).2)) ((br.getD i (0, 0)).2)) := by
        intro i hi
        simp only [compute_bounds]
        rw [merge_bounds_getD _ _ i
              (by rw [merge_bounds_length]; omega) (by omega),
            merge_bounds_getD _ _ i (by omega) (by omega), hbase i hi]
      rintro x (rfl | hx | hx)
      · intro i hi
        rw [hmerge i hi]
        exact ⟨le_trans (min_le_left _ _) (min_le_left _ _),
               le_trans (le_max_left _ _) (le_max_left _ _)⟩
      · intro i hi
        rw [hmerge i hi]
        have := hcovl x hx i hi
        exact ⟨le_trans (min_le_left _ _) (le_trans (min_le_right _ _) this.1),
               le_trans this.2 (le_trans (le_max_right _ _) (le_max_left _ _))⟩
      · intro i hi
        rw [hmerge i hi]
        have := hcovr x hx i hi
        exact ⟨le_trans (min_le_right _ _) this.1,
               le_trans this.2 (le_max_right _ _)⟩

theorem conserv_node_new (k : Nat) (e : Elt) {l r : Tree}
    (hl : Conserv k l) (hr : Conserv k r) :
    Conserv k (Tree.node e l r (compute_bounds k e l r)) :=
  Conserv.node (compute_bounds_length k e hl hr)
    (fun x hx => covers_compute_bounds k e hl hr x (mem_elements_node.mp hx))
    hl hr

theorem conserv_node_shrink_left {k : Nat} {e : Elt} {l r l2 : Tree} {b : List (Nat × Nat)}
    (h : Conserv k (Tree.node e l r b)) (h2 : Conserv k l2)
    (hsub : ∀ x ∈ elements l2, x ∈ elements l) : Conserv k (Tree.node e l2 r b) := by
  refine Conserv.node (conserv_blen h) ?_ h2 (conserv_right h)
  intro x hx
  rcases mem_elements_node.mp hx with rfl | hx | hx
  · exact conserv_covers h x (mem_elements_node.mpr (Or.inl rfl))
  · exact conserv_covers h x (mem_elements_node.mpr (Or.inr (Or.inl (hsub x hx))))
  · exact conserv_covers h x (mem_elements_node.mpr (Or.inr (Or.inr hx)))

theorem conserv_node_shrink_right {k : Nat} {e : Elt} {l r r2 : Tree} {b : List (Nat × Nat)}
    (h : Conserv k (Tree.node e l r b)) (h2 : Conserv k r2)
    (hsub : ∀ x ∈ elements r2, x ∈ elements r) : Conserv k (Tree.node e l r2 b) := by
  refine Conserv.node (conserv_blen h) ?_ (conserv_left h) h2
  intro x hx
  rcases mem_elements_node.mp hx with rfl | hx | hx
  · exact conserv_covers h x (mem_elements_node.mpr (Or.inl rfl))
  · exact conserv_covers h x (mem_elements_node.mpr (Or.inr (Or.inl hx)))
  · exact conserv_covers h x (mem_elements_node.mpr (Or.inr (Or.inr (hsub x hx))))

theorem conserv_subtree_at (k : Nat) (p : List Bool) :
    ∀ t : Tree, Conserv k t → Conserv k (subtree_at t p) := by
  induction p with
  | nil => intro t h; simpa [subtree_at] using h
  | cons d p ih =>
    intro t h
    cases t with
    | nil => rw [subtree_at_nil]; exact Conserv.nil
    | node e l r b =>
      cases d with
      | false => rw [subtree_at_cons_false]; exact ih l (conserv_left h)
      | true => rw [subtree_at_cons_true]; exact ih r (conserv_right h)

theorem conserv_replace_at_path (k : Nat) (p : List Bool) :
    ∀ t t2 : Tree, Conserv k t → Conserv k t2 →
      (∀ x ∈ elements t2, x ∈ elements (subtree_at t p)) →
      Conserv k (replace_at_path t p t2) := by
  induction p with
  | nil => intro t t2 _ h2 _; simpa [replace_at_path] using h2
  | cons d p ih =>
    intro t t2 h h2 hsub
    cases t with
    | nil => cases d <;> exact Conserv.nil
    | node e l r b =>
      cases d with
      | false =>
        rw [subtree_at_cons_false] at hsub
        have hrep := ih l t2 (conserv_left h) h2 hsub
        refine conserv_node_shrink_left h hrep ?_
        intro x hx
        rcases mem_elements_replace_at_path p l t2 x hx with h3 | h3
        · exact h3
        · exact mem_elements_subtree_at p l x (hsub x h3)
      | true =>
        rw [subtree_at_cons_true] at hsub
        have hrep := ih r t2 (conserv_right h) h2 hsub
        refine conserv_node_shrink_right h hrep ?_
        intro x hx
        rcases mem_elements_replace_at_path p r t2 x hx with h3 | h3
        · exact h3
        · exact mem_elements_subtree_at p r x (hsub x h3)

end KD

namespace KD

/-! ### The `remove_link` specification -/

theorem mem_of_elems_cons {t t2 : Tree} {m : Elt} (h : elems t = m ::ₘ elems t2) :
    ∀ x ∈ elements t2, x ∈ elements t := by
  intro x hx
  have h2 : x ∈ elems t := by
    rw [h]; exact Multiset.mem_cons_of_mem (Multiset.mem_coe.mpr hx)
  exact Multiset.mem_coe.mp h2

/-- The promotion step shared by both non-leaf arms of `remove_link`:
searching the (possibly swapped-in) right subtree `rn` for its minimum on
`dim`, removing that node there, and splicing the result back removes
exactly one element from `rn` and keeps the bounds conservative. -/
theorem promote_step (k fuel : Nat) (rn : Tree) (dim : Nat)
    (hnn : rn ≠ Tree.nil) (htf : tsize rn ≤ fuel)
    (ih : ∀ (e2 : Elt) (l2 r2 : Tree) (b2 : List (Nat × Nat)) (dim2 : Nat),
      tsize (Tree.node e2 l2 r2 b2) ≤ fuel →
      (remove_link_fuel k fuel (Tree.node e2 l2 r2 b2) dim2).1 = some e2 ∧
      elems (Tree.node e2 l2 r2 b2) =
        e2 ::ₘ elems (remove_link_fuel k fuel (Tree.node e2 l2 r2 b2) dim2).2 ∧
      (Conserv k (Tree.node e2 l2 r2 b2) →
        Conserv k (remove_link_fuel k fuel (Tree.node e2 l2 r2 b2) dim2).2)) :
    ∃ m : Elt,
      (remove_link_fuel k fuel (subtree_at rn (search_min_path rn dim)) dim).1 = some m ∧
      elems rn = m ::ₘ elems (replace_at_path rn (search_min_path rn dim)
        (remove_link_fuel k fuel (subtree_at rn (search_min_path rn dim)) dim).2) ∧
      (Conserv k rn → Conserv k (replace_at_path rn (search_min_path rn dim)
        (remove_link_fuel k fuel (subtree_at rn (search_min_path rn dim)) dim).2)) := by
  have hsubnn := subtree_at_search_min_path dim rn hnn
  cases hsub : subtree_at rn (search_min_path rn dim) with
  | nil => exact absurd hsub hsubnn
  | node es ls rs bs =>
    have htsub : tsize (Tree.node es ls rs bs) ≤ fuel := by
      have h1 := tsize_subtree_at (search_min_path rn dim) rn
      rw [hsub] at h1
      omega
    obtain ⟨h1, h2, h3⟩ := ih es ls rs bs dim htsub
    refine ⟨es, h1, ?_, ?_⟩
    · have hrep := elems_replace_at_path (search_min_path rn dim) rn
        (remove_link_fuel k fuel (Tree.node es ls rs bs) dim).2 hsubnn
      rw [hsub, h2] at hrep
      have key : (es ::ₘ elems (replace_at_path rn (search_min_path rn dim)
            (remove_link_fuel k fuel (Tree.node es ls rs bs) dim).2)) +
          elems (remove_link_fuel k fuel (Tree.node es ls rs bs) dim).2 =
          elems rn + elems (remove_link_fuel k fuel (Tree.node es ls rs bs) dim).2 := by
        rw [Multiset.cons_add, ← Multiset.add_cons]
        exact hrep
      exact (add_right_cancel key).symm
    · intro hc
      have hsubc : Conserv k (Tree.node es ls rs bs) := by
        have := conserv_subtree_at k (search_min_path rn dim) rn hc
        rwa [hsub] at this
      refine conserv_replace_at_path k (search_min_path rn dim) rn _ hc (h3 hsubc) ?_
      rw [hsub]
      exact mem_of_elems_cons h2

theorem remove_link_fuel_spec (k : Nat) :
    ∀ (fuel : Nat) (e : Elt) (l r : Tree) (b : List (Nat × Nat)) (dim : Nat),
      tsize (Tree.node e l r b) ≤ fuel →
      (remove_link_fuel k fuel (Tree.node e l r b) dim).1 = some e ∧
      elems (Tree.node e l r b) =
        e ::ₘ elems (remove_link_fuel k fuel (Tree.node e l r b) dim).2 ∧
      (Conserv k (Tree.node e l r b) →
        Conserv k (remove_link_fuel k fuel (Tree.node e l r b) dim).2) := by
  intro fuel
  induction fuel with
  | zero =>
    intro e l r b dim h
    exfalso
    simp [tsize] at h
  | succ fuel ih =>
    intro e l r b dim h
    cases r with
    | node er lr rr br =>
      have hrn : (Tree.node er lr rr br : Tree) ≠ Tree.nil := by simp
      have htf : tsize (Tree.node er lr rr br) ≤ fuel := by
        simp only [tsize] at h ⊢
        omega
      obtain ⟨m, hm1, hm2, hm3⟩ := promote_step k fuel (Tree.node er lr rr br) dim hrn htf ih
      simp only [remove_link_fuel]
      rw [hm1]
      refine ⟨rfl, ?_, ?_⟩
      · rw [elems_node, hm2, elems_node, Multiset.add_cons]
      · intro hc
        exact conserv_node_new k m (conserv_left hc) (hm3 (conserv_right hc))
    | nil =>
      cases l with
      | nil =>
        exact ⟨rfl, by simp [remove_link_fuel, elems_node, elems_nil_eq],
          fun _ => Conserv.nil⟩
      | node el ll rl bl =>
        have hln : (Tree.node el ll rl bl : Tree) ≠ Tree.nil := by simp
        have htf : tsize (Tree.node el ll rl bl) ≤ fuel := by
          simp only [tsize] at h ⊢
          omega
        obtain ⟨m, hm1, hm2, hm3⟩ := promote_step k fuel (Tree.node el ll rl bl) dim hln htf ih
        simp only [remove_link_fuel]
        rw [hm1]
        refine ⟨rfl, ?_, ?_⟩
        · rw [elems_node, hm2, elems_node]
          simp [elems_nil_eq, Multiset.cons_add]
        · intro hc
          exact conserv_node_new k m Conserv.nil (hm3 (conserv_left hc))

/-- `remove_link` on a non-empty link returns exactly the link's root
element, shrinks the stored multiset by exactly that element, and
preserves conservative bounds. -/
theorem remove_link_spec (k : Nat) (e : Elt) (l r : Tree) (b : List (Nat × Nat)) (dim : Nat) :
    (remove_link k (Tree.node e l r b) dim).1 = some e ∧
    elems (Tree.node e l r b) =
      e ::ₘ elems (remove_link k (Tree.node e l r b) dim).2 ∧
    (Conserv k (Tree.node e l r b) →
      Conserv k (remove_link k (Tree.node e l r b) dim).2) :=
  remove_link_fuel_spec k (tsize (Tree.node e l r b)) e l r b dim (le_refl _)

end KD

namespace KD

/-! ### Dominance and pruning lemmas -/

theorem dominates_iff_le (k : Nat) (a b : Elt) :
    dominates k a b = true ↔ ∀ i < k, kth a i ≤ kth b i := by
  simp [dominates, List.all_eq_true, List.mem_range]

theorem dominates_eq_false_of (k : Nat) (a b : Elt) (i : Nat)
    (hi : i < k) (h : kth b i < kth a i) : dominates k a b = false := by
  refine Bool.eq_false_iff.mpr fun hcon => ?_
  have := (dominates_iff_le k a b).mp hcon i hi
  omega

theorem dominates_refl (k : Nat) (a : Elt) : dominates k a a = true :=
  (dominates_iff_le k a a).mpr fun _ _ => le_refl _

theorem range_any_iff (k : Nat) (f : Nat → Bool) :
    (List.range k).any f = true ↔ ∃ i < k, f i = true := by
  simp [List.any_eq_true, List.mem_range]

theorem elems_update_bounds (k : Nat) (t : Tree) :
    elems (update_bounds k t) = elems t := by
  simp [elems, elements_update_bounds]

theorem mem_of_elems_filter {t2 t : Tree} {p : Elt → Prop} [DecidablePred p]
    (h : elems t2 = (elems t).filter p) : ∀ x ∈ elements t2, x ∈ elements t := by
  intro x hx
  have h2 : x ∈ elems t2 := Multiset.mem_coe.mpr hx
  rw [h] at h2
  exact Multiset.mem_coe.mp (Multiset.mem_of_le (Multiset.filter_le p (elems t)) h2)

/-! ### The eviction sweep (`rec_remove_dominated_by`) -/

theorem sweep_spec (k : Nat) (elt : Elt) :
    ∀ (t : Tree) (dim : Nat), Conserv k t →
      elems (rec_remove_dominated_by k t elt dim) =
        (elems t).filter (fun x => dominates k elt x = false) ∧
      Conserv k (rec_remove_dominated_by k t elt dim) := by
  intro t
  induction t with
  | nil =>
    intro dim _
    exact ⟨by simp [rec_remove_dominated_by, elems_nil_eq], Conserv.nil⟩
  | node e l r b ihl ihr =>
    intro dim hc
    simp only [rec_remove_dominated_by]
    split_ifs with hprune hdom
    · -- pruned: no element of the subtree is dominated by elt
      have hnone : ∀ x ∈ elems (Tree.node e l r b), dominates k elt x = false := by
        intro x hx
        obtain ⟨i, hik, hbi⟩ := (range_any_iff k _).mp hprune
        have hcov := conserv_covers hc x (Multiset.mem_coe.mp hx) i hik
        have hlt : kth x i < kth elt i := by
          have := of_decide_eq_true hbi
          omega
        exact dominates_eq_false_of k elt x i hik hlt
      exact ⟨(Multiset.filter_eq_self.mpr hnone).symm, hc⟩
    · -- children cleaned, the node itself dominated: remove it
      obtain ⟨hl2, hcl2⟩ := ihl ((dim+1) % k) (conserv_left hc)
      obtain ⟨hr2, hcr2⟩ := ihr ((dim+1) % k) (conserv_right hc)
      have hcmid : Conserv k (Tree.node e
          (rec_remove_dominated_by k l elt ((dim+1) % k))
          (rec_remove_dominated_by k r elt ((dim+1) % k)) b) := by
        have h1 := conserv_node_shrink_left hc hcl2 (mem_of_elems_filter hl2)
        exact conserv_node_shrink_right h1 hcr2 (mem_of_elems_filter hr2)
      obtain ⟨hq1, hq2, hq3⟩ := remove_link_spec k e
        (rec_remove_dominated_by k l elt ((dim+1) % k))
        (rec_remove_dominated_by k r elt ((dim+1) % k)) b dim
      constructor
      · have hmid : elems (Tree.node e
            (rec_remove_dominated_by k l elt ((dim+1) % k))
            (rec_remove_dominated_by k r elt ((dim+1) % k)) b) =
            e ::ₘ ((elems l).filter (fun x => dominates k elt x = false) +
              (elems r).filter (fun x => dominates k elt x = false)) := by
          rw [elems_node, hl2, hr2]
        rw [hmid] at hq2
        have hkey := (Multiset.cons_inj_right e).mp hq2.symm
        rw [hkey, elems_node, Multiset.filter_cons_of_neg, Multiset.filter_add]
        simp [hdom]
      · exact hq3 hcmid
    · -- children cleaned, node kept
      obtain ⟨hl2, hcl2⟩ := ihl ((dim+1) % k) (conserv_left hc)
      obtain ⟨hr2, hcr2⟩ := ihr ((dim+1) % k) (conserv_right hc)
      constructor
      · rw [elems_node, hl2, hr2, elems_node, Multiset.filter_cons_of_pos,
          Multiset.filter_add]
        simpa using hdom
      · have h1 := conserv_node_shrink_left hc hcl2 (mem_of_elems_filter hl2)
        exact conserv_node_shrink_right h1 hcr2 (mem_of_elems_filter hr2)

/-! ### `rec_exists_dominating` -/

theorem exists_dominating_sound (k : Nat) (elt : Elt) :
    ∀ t : Tree, ∀ x : Elt, rec_exists_dominating k t elt = some x →
      x ∈ elements t ∧ dominates k x elt = true := by
  intro t
  induction t with
  | nil => intro x h; simp [rec_exists_dominating] at h
  | node e l r b ihl ihr =>
    intro x h
    simp only [rec_exists_dominating] at h
    split_ifs at h with h1 h2
    · have hex : e = x := Option.some.inj h
      subst hex
      exact ⟨mem_elements_node.mpr (Or.inl rfl), h2⟩
    · cases hl : rec_exists_dominating k l elt with
      | some y =>
        rw [hl] at h
        have hyx : y = x := Option.some.inj h
        subst hyx
        obtain ⟨hm, hd⟩ := ihl y hl
        exact ⟨mem_elements_node.mpr (Or.inr (Or.inl hm)), hd⟩
      | none =>
        rw [hl] at h
        obtain ⟨hm, hd⟩ := ihr x h
        exact ⟨mem_elements_node.mpr (Or.inr (Or.inr hm)), hd⟩

theorem exists_dominating_none (k : Nat) (elt : Elt) :
    ∀ t : Tree, Conserv k t → rec_exists_dominating k t elt = none →
      ∀ x ∈ elements t, dominates k x elt = false := by
  intro t
  induction t with
  | nil => intro _ _ x hx; simp [elements] at hx
  | node e l r b ihl ihr =>
    intro hc h x hx
    simp only [rec_exists_dominating] at h
    split_ifs at h with h1 h2
    · -- pruned: elt is strictly below the subtree's lower bound somewhere
      obtain ⟨i, hik, hbi⟩ := (range_any_iff k _).mp h1
      have hcov := conserv_covers hc x hx i hik
      have hlt : kth elt i < kth x i := by
        have := of_decide_eq_true hbi
        omega
      exact dominates_eq_false_of k x elt i hik hlt
    · cases hl : rec_exists_dominating k l elt with
      | some y => rw [hl] at h; exact absurd h (by simp)
      | none =>
        rw [hl] at h
        rcases mem_elements_node.mp hx with rfl | hx2 | hx2
        · exact Bool.eq_false_iff.mpr h2
        · exact ihl (conserv_left hc) hl x hx2
        · exact ihr (conserv_right hc) h x hx2

/-! ### `insert_without_check` -/

theorem rec_insert_unfold_left_leaf (k : Nat) (e : Elt) (r : Tree) (b : List (Nat × Nat))
    (elt : Elt) (dim : Nat) (h : kth elt dim < kth e dim) :
    rec_insert_without_check k (Tree.node e Tree.nil r b) elt dim =
      update_bounds k (Tree.node e (Tree.node elt Tree.nil Tree.nil
        (compute_bounds k elt Tree.nil Tree.nil)) r b) := by
  rw [rec_insert_without_check.eq_def]
  simp [h]

theorem rec_insert_unfold_left_rec (k : Nat) (e el : Elt) (ll rl r : Tree)
    (bl b : List (Nat × Nat)) (elt : Elt) (dim : Nat) (h : kth elt dim < kth e dim) :
    rec_insert_without_check k (Tree.node e (Tree.node el ll rl bl) r b) elt dim =
      update_bounds k (Tree.node e
        (rec_insert_without_check k (Tree.node el ll rl bl) elt ((dim+1) % k)) r b) := by
  rw [rec_insert_without_check.eq_def]
  simp [h]

theorem rec_insert_unfold_right_leaf (k : Nat) (e : Elt) (l : Tree) (b : List (Nat × Nat))
    (elt : Elt) (dim : Nat) (h : ¬ kth elt dim < kth e dim) :
    rec_insert_without_check k (Tree.node e l Tree.nil b) elt dim =
      update_bounds k (Tree.node e l (Tree.node elt Tree.nil Tree.nil
        (compute_bounds k elt Tree.nil Tree.nil)) b) := by
  rw [rec_insert_without_check.eq_def]
  simp [h]

theorem rec_insert_unfold_right_rec (k : Nat) (e er : Elt) (l lr rr : Tree)
    (br b : List (Nat × Nat)) (elt : Elt) (dim : Nat) (h : ¬ kth elt dim < kth e dim) :
    rec_insert_without_check k (Tree.node e l (Tree.node er lr rr br) b) elt dim =
      update_bounds k (Tree.node e l
        (rec_insert_without_check k (Tree.node er lr rr br) elt ((dim+1) % k)) b) := by
  rw [rec_insert_without_check.eq_def]
  simp [h]

theorem rec_insert_elems (k : Nat) (elt : Elt) :
    ∀ t : Tree, t ≠ Tree.nil → ∀ dim : Nat,
      elems (rec_insert_without_check k t elt dim) = elt ::ₘ elems t := by
  intro t
  induction t with
  | nil => intro h; exact absurd rfl h
  | node e l r b ihl ihr =>
    intro _ dim
    by_cases h1 : kth elt dim < kth e dim
    · cases l with
      | nil =>
        rw [rec_insert_unfold_left_leaf k e r b elt dim h1, elems_update_bounds,
          elems_node, elems_node, elems_node]
        simp [elems_nil_eq, Multiset.cons_add, Multiset.cons_swap]
      | node el ll rl bl =>
        rw [rec_insert_unfold_left_rec k e el ll rl r bl b elt dim h1, elems_update_bounds,
          elems_node, ihl (by simp) ((dim+1) % k), elems_node]
        rw [Multiset.cons_add, Multiset.cons_swap, elems_node, elems_node]
    · cases r with
      | nil =>
        rw [rec_insert_unfold_right_leaf k e l b elt dim h1, elems_update_bounds,
          elems_node, elems_node, elems_node]
        rw [Multiset.add_cons, Multiset.cons_swap, elems_nil_eq]
        simp
      | node er lr rr br =>
        rw [rec_insert_unfold_right_rec k e er l lr rr br b elt dim h1, elems_update_bounds,
          elems_node, ihr (by simp) ((dim+1) % k), elems_node]
        rw [Multiset.add_cons, Multiset.cons_swap, elems_node, elems_node]

theorem rec_insert_conserv (k : Nat) (elt : Elt) :
    ∀ t : Tree, Conserv k t → ∀ dim : Nat,
      Conserv k (rec_insert_without_check k t elt dim) := by
  intro t
  induction t with
  | nil => intro _ _; exact Conserv.nil
  | node e l r b ihl ihr =>
    intro hc dim
    by_cases h1 : kth elt dim < kth e dim
    · cases l with
      | nil =>
        rw [rec_insert_unfold_left_leaf k e r b elt dim h1]
        exact conserv_node_new k e
          (conserv_node_new k elt Conserv.nil Conserv.nil) (conserv_right hc)
      | node el ll rl bl =>
        rw [rec_insert_unfold_left_rec k e el ll rl r bl b elt dim h1]
        exact conserv_node_new k e (ihl (conserv_left hc) ((dim+1) % k)) (conserv_right hc)
    · cases r with
      | nil =>
        rw [rec_insert_unfold_right_leaf k e l b elt dim h1]
        exact conserv_node_new k e (conserv_left hc)
          (conserv_node_new k elt Conserv.nil Conserv.nil)
      | node er lr rr br =>
        rw [rec_insert_unfold_right_rec k e er l lr rr br b elt dim h1]
        exact conserv_node_new k e (conserv_left hc) (ihr (conserv_right hc) ((dim+1) % k))

theorem insert_without_check_elems (k : Nat) (t : Tree) (elt : Elt) :
    elems (insert_without_check k t elt) = elt ::ₘ elems t := by
  cases t with
  | nil => simp [insert_without_check, elems_node, elems_nil_eq]
  | node e l r b => exact rec_insert_elems k elt (Tree.node e l r b) (by simp) 0

theorem insert_without_check_conserv (k : Nat) (t : Tree) (elt : Elt)
    (hc : Conserv k t) : Conserv k (insert_without_check k t elt) := by
  cases t with
  | nil => exact conserv_node_new k elt Conserv.nil Conserv.nil
  | node e l r b => exact rec_insert_conserv k elt (Tree.node e l r b) hc 0

/-! ### `rec_remove_and_return` -/

theorem rar_spec (k : Nat) (elt : Elt) :
    ∀ (t : Tree) (dim : Nat), Conserv k t →
      ((rec_remove_and_return k t elt dim).1 = none ∧
        (rec_remove_and_return k t elt dim).2 = t) ∨
      ((rec_remove_and_return k t elt dim).1 = some elt ∧
        elems t = elt ::ₘ elems (rec_remove_and_return k t elt dim).2 ∧
        Conserv k (rec_remove_and_return k t elt dim).2) := by
  intro t
  induction t with
  | nil => intro dim _; exact Or.inl ⟨rfl, rfl⟩
  | node e l r b ihl ihr =>
    intro dim hc
    simp only [rec_remove_and_return]
    split_ifs with h1 h2
    · subst h1
      obtain ⟨hq1, hq2, hq3⟩ := remove_link_spec k e l r b dim
      exact Or.inr ⟨hq1, hq2, hq3 hc⟩
    · rcases ihl ((dim+1) % k) (conserv_left hc) with ⟨ha, hb⟩ | ⟨ha, hb, hcc⟩
      · exact Or.inl ⟨ha, by rw [hb]⟩
      · refine Or.inr ⟨ha, ?_, ?_⟩
        · rw [elems_node, elems_node, hb, Multiset.cons_add, Multiset.cons_swap]
        · exact conserv_node_shrink_left hc hcc (mem_of_elems_cons hb)
    · rcases ihr ((dim+1) % k) (conserv_right hc) with ⟨ha, hb⟩ | ⟨ha, hb, hcc⟩
      · exact Or.inl ⟨ha, by rw [hb]⟩
      · refine Or.inr ⟨ha, ?_, ?_⟩
        · rw [elems_node, elems_node, hb, Multiset.add_cons, Multiset.cons_swap]
        · exact conserv_node_shrink_right hc hcc (mem_of_elems_cons hb)

end KD

namespace KD

/-! ### Invariant preservation -/

theorem inv_nil (k : Nat) : Inv k Tree.nil :=
  ⟨Conserv.nil, fun a ha => by simp [elements] at ha⟩

theorem antichain_subset {k : Nat} {t t2 : Tree}
    (h : Antichain k t) (hsub : ∀ x ∈ elements t2, x ∈ elements t) : Antichain k t2 :=
  fun a ha c hc hne => h a (hsub a ha) c (hsub c hc) hne

theorem insert_eq_of_some (k : Nat) (t : Tree) (elt x : Elt)
    (h : rec_exists_dominating k t elt = some x) : insert k t elt = (false, t) := by
  simp [insert, find_dominating, h]

theorem insert_eq_of_none (k : Nat) (t : Tree) (elt : Elt)
    (h : rec_exists_dominating k t elt = none) :
    insert k t elt =
      (true, insert_without_check k (rec_remove_dominated_by k t elt 0) elt) := by
  simp [insert, find_dominating, h]

theorem inv_insert (k : Nat) (t : Tree) (elt : Elt) (h : Inv k t) :
    Inv k (insert k t elt).2 := by
  obtain ⟨hc, ha⟩ := h
  cases hfd : rec_exists_dominating k t elt with
  | some x => rw [insert_eq_of_some k t elt x hfd]; exact ⟨hc, ha⟩
  | none =>
    rw [insert_eq_of_none k t elt hfd]
    have hall := exists_dominating_none k elt t hc hfd
    obtain ⟨hsw, hcsw⟩ := sweep_spec k elt t 0 hc
    refine ⟨insert_without_check_conserv k _ elt hcsw, ?_⟩
    have hel : elems (insert_without_check k (rec_remove_dominated_by k t elt 0) elt)
        = elt ::ₘ (elems t).filter (fun x => dominates k elt x = false) := by
      rw [insert_without_check_elems, hsw]
    have hmem : ∀ x ∈ elements (insert_without_check k
        (rec_remove_dominated_by k t elt 0) elt),
        x = elt ∨ (x ∈ elements t ∧ dominates k elt x = false) := by
      intro x hx
      have h2 : x ∈ elems (insert_without_check k (rec_remove_dominated_by k t elt 0) elt) :=
        Multiset.mem_coe.mpr hx
      rw [hel] at h2
      rcases Multiset.mem_cons.mp h2 with h3 | h3
      · exact Or.inl h3
      · obtain ⟨hm2, hp2⟩ := Multiset.mem_filter.mp h3
        exact Or.inr ⟨Multiset.mem_coe.mp hm2, hp2⟩
    intro a hamem c hcmem hne
    rcases hmem a hamem with rfl | ⟨hat, had⟩
    · rcases hmem c hcmem with rfl | ⟨hct, hcd⟩
      · exact absurd rfl hne
      · exact hcd
    · rcases hmem c hcmem with rfl | ⟨hct, hcd⟩
      · exact hall a hat
      · exact ha a hat c hct hne

theorem inv_remove (k : Nat) (t : Tree) (elt : Elt) (h : Inv k t) :
    Inv k (remove k t elt).2 := by
  obtain ⟨hc, ha⟩ := h
  rcases rar_spec k elt t 0 hc with ⟨h1, h2⟩ | ⟨h1, h2, h3⟩
  · simp only [remove]
    rw [h2]
    exact ⟨hc, ha⟩
  · simp only [remove]
    exact ⟨h3, antichain_subset ha (mem_of_elems_cons h2)⟩

theorem inv_pop (k : Nat) (t : Tree) (dim : Nat) (h : Inv k t) :
    Inv k (pop_minimum_element k t dim).2 := by
  obtain ⟨hc, ha⟩ := h
  cases t with
  | nil => exact inv_nil k
  | node e l r b =>
    simp only [pop_minimum_element]
    have hnn : (Tree.node e l r b : Tree) ≠ Tree.nil := by simp
    have hsubnn := subtree_at_search_min_path dim (Tree.node e l r b) hnn
    cases hsub : subtree_at (Tree.node e l r b)
        (search_min_path (Tree.node e l r b) dim) with
    | nil => exact absurd hsub hsubnn
    | node es ls rs bs =>
      obtain ⟨hq1, hq2, hq3⟩ := remove_link_spec k es ls rs bs
        ((search_min_path (Tree.node e l r b) dim).length % k)
      have hsubc : Conserv k (Tree.node es ls rs bs) := by
        have h2 := conserv_subtree_at k (search_min_path (Tree.node e l r b) dim)
          (Tree.node e l r b) hc
        rwa [hsub] at h2
      constructor
      · refine conserv_replace_at_path k _ _ _ hc (hq3 hsubc) ?_
        rw [hsub]
        exact mem_of_elems_cons hq2
      · refine antichain_subset ha ?_
        intro x hx
        rcases mem_elements_replace_at_path _ _ _ x hx with h2 | h2
        · exact h2
        · have h3 := mem_of_elems_cons hq2 x h2
          have h4 : x ∈ elements (subtree_at (Tree.node e l r b)
              (search_min_path (Tree.node e l r b) dim)) := by
            rw [hsub]; exact h3
          exact mem_elements_subtree_at _ _ x h4

theorem reachable_inv (k : Nat) (t : Tree) (h : Reachable k t) : Inv k t := by
  induction h with
  | empty => exact inv_nil k
  | ins t elt _ _ ih => exact inv_insert k t elt ih
  | rem t elt _ _ ih => exact inv_remove k t elt ih
  | pop t dim _ _ ih => exact inv_pop k t dim ih

end KD

namespace KD

/-! ### Unfolding lemmas for `rec_remove_and_return` -/

theorem rar_unfold_found (k : Nat) (l r : Tree) (b : List (Nat × Nat)) (elt : Elt) (dim : Nat) :
    rec_remove_and_return k (Tree.node elt l r b) elt dim =
      remove_link k (Tree.node elt l r b) dim := by
  simp only [rec_remove_and_return]
  simp

theorem rar_unfold_left (k : Nat) (e : Elt) (l r : Tree) (b : List (Nat × Nat))
    (elt : Elt) (dim : Nat) (h1 : ¬ e = elt) (h2 : kth elt dim < kth e dim) :
    rec_remove_and_return k (Tree.node e l r b) elt dim =
      ((rec_remove_and_return k l elt ((dim+1) % k)).1,
        Tree.node e (rec_remove_and_return k l elt ((dim+1) % k)).2 r b) := by
  simp only [rec_remove_and_return]
  rw [if_neg h1, if_pos h2]

theorem rar_unfold_right (k : Nat) (e : Elt) (l r : Tree) (b : List (Nat × Nat))
    (elt : Elt) (dim : Nat) (h1 : ¬ e = elt) (h2 : ¬ kth elt dim < kth e dim) :
    rec_remove_and_return k (Tree.node e l r b) elt dim =
      ((rec_remove_and_return k r elt ((dim+1) % k)).1,
        Tree.node e l (rec_remove_and_return k r elt ((dim+1) % k)).2 b) := by
  simp only [rec_remove_and_return]
  rw [if_neg h1, if_neg h2]

/-- Removing `elt` immediately after inserting it (same starting
discriminant, `elt` not already stored) finds exactly the fresh leaf:
the removal descends along the very comparisons the insertion made. -/
theorem remove_after_insert (k : Nat) (elt : Elt) :
    ∀ t : Tree, t ≠ Tree.nil → (∀ x ∈ elements t, ¬ x = elt) → ∀ dim : Nat,
      (rec_remove_and_return k (rec_insert_without_check k t elt dim) elt dim).1 = some elt ∧
      elems (rec_remove_and_return k (rec_insert_without_check k t elt dim) elt dim).2 =
        elems t := by
  intro t
  induction t with
  | nil => intro h; exact absurd rfl h
  | node e l r b ihl ihr =>
    intro _ hne dim
    have hene : ¬ e = elt := hne e (mem_elements_node.mpr (Or.inl rfl))
    by_cases h1 : kth elt dim < kth e dim
    · cases l with
      | nil =>
        rw [rec_insert_unfold_left_leaf k e r b elt dim h1]
        simp only [update_bounds]
        rw [rar_unfold_left k e _ r _ elt dim hene h1]
        have hleaf : rec_remove_and_return k
            (Tree.node elt Tree.nil Tree.nil (compute_bounds k elt Tree.nil Tree.nil))
            elt ((dim+1) % k) =
            (some elt, Tree.nil) := by
          rw [rar_unfold_found]
          rfl
        rw [hleaf]
        exact ⟨rfl, by rw [elems_node, elems_node]⟩
      | node el ll rl bl =>
        rw [rec_insert_unfold_left_rec k e el ll rl r bl b elt dim h1]
        simp only [update_bounds]
        rw [rar_unfold_left k e _ r _ elt dim hene h1]
        obtain ⟨ha, hb⟩ := ihl (by simp)
          (fun x hx => hne x (mem_elements_node.mpr (Or.inr (Or.inl hx)))) ((dim+1) % k)
        exact ⟨ha, by rw [elems_node, hb, ← elems_node e (Tree.node el ll rl bl) r b]⟩
    · cases r with
      | nil =>
        rw [rec_insert_unfold_right_leaf k e l b elt dim h1]
        simp only [update_bounds]
        rw [rar_unfold_right k e l _ _ elt dim hene h1]
        have hleaf : rec_remove_and_return k
            (Tree.node elt Tree.nil Tree.nil (compute_bounds k elt Tree.nil Tree.nil))
            elt ((dim+1) % k) =
            (some elt, Tree.nil) := by
          rw [rar_unfold_found]
          rfl
        rw [hleaf]
        exact ⟨rfl, by rw [elems_node, elems_node]⟩
      | node er lr rr br =>
        rw [rec_insert_unfold_right_rec k e er l lr rr br b elt dim h1]
        simp only [update_bounds]
        rw [rar_unfold_right k e l _ _ elt dim hene h1]
        obtain ⟨ha, hb⟩ := ihr (by simp)
          (fun x hx => hne x (mem_elements_node.mpr (Or.inr (Or.inr hx)))) ((dim+1) % k)
        exact ⟨ha, by rw [elems_node, hb, ← elems_node e l (Tree.node er lr rr br) b]⟩

/-! ### Claim theorems: proved invariants -/

/-- **C1**: antichain invariant.  On every front reachable from the empty
front through the public operations, no two distinct stored elements
dominate one another (in either direction). -/
theorem C1_antichain_invariant (k : Nat) (t : Tree) (h : Reachable k t) :
    ∀ a ∈ elements t, ∀ c ∈ elements t, a ≠ c →
      dominates k a c = false ∧ dominates k c a = false := by
  obtain ⟨-, ha⟩ := reachable_inv k t h
  intro a haa c hcc hne
  exact ⟨ha a haa c hcc hne, ha c hcc a haa (Ne.symm hne)⟩

/-- Witness for `C1_antichain_invariant` on the reachable four-element
front `c4_start`, at the pair `[0,3]`, `[3,0]`. -/
theorem C1_antichain_invariant_witness :
    dominates 2 [0,3] [3,0] = false ∧ dominates 2 [3,0] [0,3] = false :=
  C1_antichain_invariant 2 c4_start
    (Reachable.ins _ _ (Reachable.ins _ _ (Reachable.ins _ _
      (Reachable.ins _ _ Reachable.empty rfl) rfl) rfl) rfl)
    [0,3] (by decide) [3,0] (by decide) (by decide)

/-- **C2**: rejected insert is all-or-nothing.  On a reachable front, if
some stored element dominates `elt`, then `insert elt` returns `false`
and the tree value — structure and every cached bound — is exactly the
one before the call. -/
theorem C2_rejected_insert_unchanged (k : Nat) (t : Tree) (elt : Elt)
    (h : Reachable k t) (hdom : ∃ x ∈ elements t, dominates k x elt = true) :
    insert k t elt = (false, t) := by
  obtain ⟨hc, -⟩ := reachable_inv k t h
  cases hfd : rec_exists_dominating k t elt with
  | none =>
    obtain ⟨x, hx, hdx⟩ := hdom
    rw [exists_dominating_none k elt t hc hfd x hx] at hdx
    exact absurd hdx (by simp)
  | some y => exact insert_eq_of_some k t elt y hfd

/-- Witness for `C2_rejected_insert_unchanged`: `[1,1]` is stored in
`c7_t0` and dominates `[2,2]`, so inserting `[2,2]` is rejected with the
tree unchanged. -/
theorem C2_rejected_insert_unchanged_witness :
    ([1,1] ∈ elements c7_t0 ∧ dominates 2 [1,1] [2,2] = true) ∧
    insert 2 c7_t0 [2,2] = (false, c7_t0) :=
  ⟨by decide, C2_rejected_insert_unchanged 2 c7_t0 [2,2]
    (Reachable.ins _ _ Reachable.empty rfl) ⟨[1,1], by decide, by decide⟩⟩

/-- **C3**: successful insert evicts exactly the dominated elements.  On
a reachable front whose stored multiset is `S`, if no stored element
dominates `elt`, then `insert elt` returns `true` and the stored
multiset becomes `{elt}` plus the elements of `S` not dominated by
`elt`. -/
theorem C3_insert_evicts_exactly_dominated (k : Nat) (t : Tree) (elt : Elt)
    (h : Reachable k t) (hnodom : ∀ x ∈ elements t, dominates k x elt = false) :
    (insert k t elt).1 = true ∧
    elems (insert k t elt).2 =
      elt ::ₘ (elems t).filter (fun x => dominates k elt x = false) := by
  obtain ⟨hc, -⟩ := reachable_inv k t h
  have hnone : rec_exists_dominating k t elt = none := by
    cases hfd : rec_exists_dominating k t elt with
    | none => rfl
    | some y =>
      obtain ⟨hmem, hdy⟩ := exists_dominating_sound k elt t y hfd
      rw [hnodom y hmem] at hdy
      exact absurd hdy (by simp)
  rw [insert_eq_of_none k t elt hnone]
  obtain ⟨hsw, -⟩ := sweep_spec k elt t 0 hc
  exact ⟨rfl, by rw [insert_without_check_elems, hsw]⟩

/-- Witness for `C3_insert_evicts_exactly_dominated`: inserting `[0,0]`
into `c7_t0` (which stores only `[1,1]`, and `[1,1]` does not dominate
`[0,0]`) returns `true` and evicts `[1,1]`. -/
theorem C3_insert_evicts_exactly_dominated_witness :
    (insert 2 c7_t0 [0,0]).1 = true ∧
    elems (insert 2 c7_t0 [0,0]).2 =
      [0,0] ::ₘ (elems c7_t0).filter (fun x => dominates 2 [0,0] x = false) :=
  C3_insert_evicts_exactly_dominated 2 c7_t0 [0,0]
    (Reachable.ins _ _ Reachable.empty rfl) (by decide)

/-- **C7, amended**: insert/remove round-trip up to evictions.  On a
reachable front with stored multiset `S`, if `insert elt` returns `true`,
an immediately following `remove elt` returns `true` and the stored
multiset equals `S` minus the elements `elt` dominates (the evicted
elements are *not* restored; they are restored in no case whatsoever,
so the originally claimed equality with `S` holds exactly when `elt`
dominated nothing). -/
theorem C7_remove_after_insert (k : Nat) (t : Tree) (elt : Elt)
    (h : Reachable k t) (hins : (insert k t elt).1 = true) :
    (remove k (insert k t elt).2 elt).1 = true ∧
    elems (remove k (insert k t elt).2 elt).2 =
      (elems t).filter (fun x => dominates k elt x = false) := by
  obtain ⟨hc, -⟩ := reachable_inv k t h
  have hnone : rec_exists_dominating k t elt = none := by
    cases hfd : rec_exists_dominating k t elt with
    | none => rfl
    | some y =>
      rw [insert_eq_of_some k t elt y hfd] at hins
      exact absurd hins (by simp)
  rw [insert_eq_of_none k t elt hnone]
  obtain ⟨hsw, -⟩ := sweep_spec k elt t 0 hc
  have hnet : ∀ x ∈ elements (rec_remove_dominated_by k t elt 0), ¬ x = elt := by
    intro x hx hxe
    have hmem : x ∈ elems (rec_remove_dominated_by k t elt 0) := Multiset.mem_coe.mpr hx
    rw [hsw] at hmem
    obtain ⟨-, hpred⟩ := Multiset.mem_filter.mp hmem
    rw [hxe, dominates_refl] at hpred
    exact absurd hpred (by simp)
  cases hswt : rec_remove_dominated_by k t elt 0 with
  | nil =>
    constructor
    · simp only [remove, insert_without_check]
      rw [rar_unfold_found k Tree.nil Tree.nil (compute_bounds k elt Tree.nil Tree.nil) elt 0]
      rfl
    · simp only [remove, insert_without_check]
      rw [rar_unfold_found k Tree.nil Tree.nil (compute_bounds k elt Tree.nil Tree.nil) elt 0]
      rw [← hsw, hswt]
      rfl
  | node es ls rs bs =>
    have hnet2 : ∀ x ∈ elements (Tree.node es ls rs bs), ¬ x = elt := by
      intro x hx
      exact hnet x (by rw [hswt]; exact hx)
    obtain ⟨ha, hb⟩ := remove_after_insert k elt (Tree.node es ls rs bs) (by simp) hnet2 0
    constructor
    · simp only [remove, insert_without_check]
      rw [ha]
      rfl
    · simp only [remove, insert_without_check]
      rw [hb, ← hswt, hsw]

/-- Witness for `C7_remove_after_insert`: insert `[0,0]` into `c7_t0`
(returns `true`, evicting `[1,1]`), then remove `[0,0]`: the removal
returns `true` and the front holds the non-dominated remainder (here:
nothing). -/
theorem C7_remove_after_insert_witness :
    (insert 2 c7_t0 [0,0]).1 = true ∧
    (remove 2 (insert 2 c7_t0 [0,0]).2 [0,0]).1 = true ∧
    elems (remove 2 (insert 2 c7_t0 [0,0]).2 [0,0]).2 =
      (elems c7_t0).filter (fun x => dominates 2 [0,0] x = false) := by
  have h := C7_remove_after_insert 2 c7_t0 [0,0]
    (Reachable.ins _ _ Reachable.empty rfl) (by decide)
  exact ⟨by decide, h.1, h.2⟩

end KD
